import Mathlib

/-!
Verification of the deep document text extractor (`core/file_parser.py`).

Python strings are modelled as `List Nat` of Unicode code points (Python
strings may hold lone surrogates, which Lean `Char` cannot, so bare code
points are used).  Byte strings are modelled as `List Nat` with entries
below 256.  Every definition is translated from the source module; the
filesystem, the OLE container library, the zip library, the raw-deflate
decompressor and the PDF page reader are external effects and appear as
explicit parameters or small record models.
-/

/-- Code points of a Lean string literal, used to transcribe the literal
strings appearing in the source. -/
def strN (s : String) : List Nat := s.data.map Char.toNat

/-- Python `str.isspace` on a single code point (the character set CPython
uses for `str.strip()` with no arguments). -/
def isPySpace (c : Nat) : Bool :=
  (9 ≤ c && c ≤ 13) || (28 ≤ c && c ≤ 32) || c = 133 || c = 160 || c = 5760 ||
  (8192 ≤ c && c ≤ 8202) || c = 8232 || c = 8233 || c = 8239 || c = 8287 || c = 12288

/-- Python `str.strip()` restricted to the left end (`str.lstrip()` part). -/
def pyStripLeft (s : List Nat) : List Nat := s.dropWhile isPySpace

/-- Python `str.strip()` restricted to the right end (`str.rstrip()` part). -/
def pyStripRight (s : List Nat) : List Nat := s.rdropWhile isPySpace

/-- Python `str.strip()` with no arguments: remove whitespace at both ends. -/
def pyStrip (s : List Nat) : List Nat := pyStripRight (pyStripLeft s)

/-- Python `text.split(chr(10))`: split a string at every newline; the empty
string yields one empty field, like in Python. -/
def pySplitNL : List Nat → List (List Nat)
  | [] => [[]]
  | c :: cs =>
    if c = 10 then [] :: pySplitNL cs
    else
      match pySplitNL cs with
      | l :: ls => (c :: l) :: ls
      | [] => [[c]]

/-- Python `sep.join(lines)` for a one-character separator. -/
def joinSep (sep : Nat) : List (List Nat) → List Nat
  | [] => []
  | [l] => l
  | l :: ls => l ++ sep :: joinSep sep ls

/-- Python `"\n".join(lines)` (the separator used throughout the module). -/
def joinNL (ls : List (List Nat)) : List Nat := joinSep 10 ls

/-- Replacement emitted for a pending run of `n` newlines by the regex
substitution `\n{3,} -> \n\n`: a maximal run of three or more newlines
becomes exactly two, shorter runs are kept. -/
def collapseEmit (n : Nat) : List Nat := List.replicate (if 3 ≤ n then 2 else n) 10

/-- Worker for the regex substitution: scans the text, counting the pending
run of consecutive newlines, and emits each maximal run through
`collapseEmit` when a non-newline character (or the end) is reached. -/
def collapseNLGo : Nat → List Nat → List Nat
  | pending, [] => collapseEmit pending
  | pending, c :: cs =>
    if c = 10 then collapseNLGo (pending + 1) cs
    else collapseEmit pending ++ c :: collapseNLGo 0 cs

/-- The source line `text = re.sub(r'\n{3,}', '\n\n', text)`. -/
def collapseNL (s : List Nat) : List Nat := collapseNLGo 0 s

/-- `FileParser._clean_text`: on falsy input return the empty string;
otherwise collapse newline runs of three or more to two, strip every line,
re-join with newlines, and strip the whole result. -/
def cleanText (text : List Nat) : List Nat :=
  if text = [] then []
  else
    let t1 := collapseNL text
    let t2 := joinNL ((pySplitNL t1).map pyStrip)
    pyStrip t2

/-- Python `str.lower()` on the ASCII range (the source only compares the
result against the ASCII extension literals, where this range decides). -/
def pyLowerAscii (s : List Nat) : List Nat :=
  s.map (fun c => if 65 ≤ c ∧ c ≤ 90 then c + 32 else c)

/-- Extension part of `os.path.splitext` (POSIX): the suffix of the last
path component starting at its last dot, provided some character of the
component before that dot is not itself a dot (leading dots of a hidden
file never begin an extension); otherwise the empty string. -/
def pySplitextExt (p : List Nat) : List Nat :=
  let base := (p.reverse.takeWhile (fun c => c ≠ 47)).reverse
  let pre := (base.reverse.dropWhile (fun c => c ≠ 46)).reverse
  match pre with
  | [] => []
  | _ =>
    if pre.dropLast.any (fun c => c ≠ 46) then
      46 :: (base.reverse.takeWhile (fun c => c ≠ 46)).reverse
    else []

/-- `FileParser.SUPPORTED_EXTENSIONS` (a set in the source; only membership
is ever used, so a list model is adequate). -/
def supportedExtensions : List (List Nat) := [strN ".hwp", strN ".hwpx", strN ".pdf"]

/-- The two fatal dispatcher outcomes: `FileNotFoundError` and `ValueError`
raised by `FileParser.parse`. -/
inductive FatalError where
  | missingFile : FatalError
  | unsupportedFormat : FatalError
deriving DecidableEq

/-- The extension dispatch inside the `try` block of `FileParser.parse`;
the three extractors perform I/O and are passed in as functions returning
either a text or a raised exception message. -/
def dispatchExtractor (hwpF hwpxF pdfF : List Nat → Except (List Nat) (List Nat))
    (ext filePath : List Nat) : Except (List Nat) (List Nat) :=
  if ext = strN ".hwp" then hwpF filePath
  else if ext = strN ".hwpx" then hwpxF filePath
  else if ext = strN ".pdf" then pdfF filePath
  else .ok []

/-- The message built by `FileParser.parse` when an extractor raises. -/
def parseFailMessage (ext e : List Nat) : List Nat :=
  strN "파일 파싱 중 오류 발생 (" ++ ext ++ strN "): " ++ e

/-- `FileParser.parse`: existence check, extension check (lower-cased),
dispatch, conversion of any extractor exception into a sentinel-prefixed
string, and normalization of successful output through `_clean_text`. -/
def parseDispatch (pathExists : List Nat → Bool)
    (hwpF hwpxF pdfF : List Nat → Except (List Nat) (List Nat))
    (filePath : List Nat) : Except FatalError (List Nat) :=
  if !pathExists filePath then .error .missingFile
  else
    let ext := pyLowerAscii (pySplitextExt filePath)
    if ext ∉ supportedExtensions then .error .unsupportedFormat
    else
      match dispatchExtractor hwpF hwpxF pdfF ext filePath with
      | .error e => .ok (strN "[파싱 오류] " ++ parseFailMessage ext e)
      | .ok t => .ok (cleanText t)

/-- Little-endian encoding of a 16-bit value (`struct.pack("<H", u)`). -/
def le16enc (u : Nat) : List Nat := [u % 256, u / 256 % 256]

/-- Little-endian encoding of a 32-bit value (`struct.pack("<I", n)`). -/
def le32enc (n : Nat) : List Nat :=
  [n % 256, n / 256 % 256, n / 65536 % 256, n / 16777216 % 256]

/-- `FileParser._decode_hwp_text`: read two-byte little-endian code units
while at least two bytes remain; `0x000D` becomes a newline, every other
code unit at or below `0x001F` is dropped (the extended control codes
`0x03, 0x11..0x18` take the same single-unit step as the plain ones), and
any other unit is emitted as its character. -/
def decodeHwpText : List Nat → List Nat
  | b0 :: b1 :: rest =>
    let code := b0 + 256 * b1
    if code = 13 then 10 :: decodeHwpText rest
    else if code ≤ 31 then decodeHwpText rest
    else code :: decodeHwpText rest
  | _ => []

/-- UTF-16 code units of a sequence of Unicode code points: one unit below
`0x10000`, a surrogate pair otherwise (the encoding side of the round-trip
claim; Python `str.encode("utf-16-le")`). -/
def utf16Units : List Nat → List Nat
  | [] => []
  | c :: cs =>
    (if c < 65536 then [c]
     else [55296 + (c - 65536) / 1024, 56320 + (c - 65536) % 1024]) ++ utf16Units cs

/-- UTF-16LE byte serialization of a sequence of Unicode code points. -/
def utf16leBytes (s : List Nat) : List Nat := (utf16Units s).flatMap le16enc

/-- Record scan of `FileParser._extract_text_from_hwp_records`, yielding the
`(tagId, payload)` pairs the `while` loop visits.  Fewer than four remaining
bytes stop the scan; a size field of `0xFFF` reads the true size from the
next four bytes; a payload reaching past the end stops the scan.  Each
iteration consumes at least the four header bytes, so the byte count is a
structural fuel for the loop. -/
def hwpRecordsLoop : Nat → List Nat → List (Nat × List Nat)
  | 0, _ => []
  | fuel + 1, b0 :: b1 :: b2 :: b3 :: rest =>
    let header := b0 + 256 * b1 + 65536 * b2 + 16777216 * b3
    let tagId := header % 1024
    let size := header / 1048576 % 4096
    if size = 4095 then
      match rest with
      | c0 :: c1 :: c2 :: c3 :: rest2 =>
        let size2 := c0 + 256 * c1 + 65536 * c2 + 16777216 * c3
        if size2 ≤ rest2.length then
          (tagId, rest2.take size2) :: hwpRecordsLoop fuel (rest2.drop size2)
        else []
      | _ => []
    else
      if size ≤ rest.length then
        (tagId, rest.take size) :: hwpRecordsLoop fuel (rest.drop size)
      else []
  | _ + 1, _ => []

/-- The `(tagId, payload)` records of a decompressed body-section stream. -/
def hwpRecords (data : List Nat) : List (Nat × List Nat) :=
  hwpRecordsLoop data.length data

/-- Per-record contribution inside the scan loop: a record with
`tagId == 67` contributes its decoded payload when the decoded text strips
to something non-empty (`if text.strip():`); every other record contributes
nothing. -/
def hwpRecordText (r : Nat × List Nat) : Option (List Nat) :=
  if r.1 = 67 then
    let t := decodeHwpText r.2
    if pyStrip t = [] then none else some t
  else none

/-- `FileParser._extract_text_from_hwp_records`: the loop interleaves
tokenizing and decoding, but decoding never moves the cursor, so it equals
the record scan followed by the per-record contribution, joined with
newlines. -/
def extractTextFromHwpRecords (data : List Nat) : List Nat :=
  joinNL ((hwpRecords data).filterMap hwpRecordText)

/-- Serialization of one record, used to state the claims about the record
layout: header word `tagId | level << 10 | size << 20` (level 0), with the
`0xFFF` escape and a trailing true-size word for payloads of 4095 bytes or
more. -/
def buildRecord (tagId : Nat) (payload : List Nat) : List Nat :=
  if payload.length < 4095 then
    le32enc (tagId + 1048576 * payload.length) ++ payload
  else
    le32enc (tagId + 1048576 * 4095) ++ le32enc payload.length ++ payload

/-- ASCII decimal digit test (the `\d` of the sort-key regex, restricted to
the ASCII range actually produced by stream and entry names). -/
def isDigitB (c : Nat) : Bool := 48 ≤ c && c ≤ 57

/-- The maximal trailing digit run of a name (the match of the regex
`(\d+)$` in the section sort key). -/
def trailingDigits (s : List Nat) : List Nat := (s.reverse.takeWhile isDigitB).reverse

/-- Numeric value of a digit string (Python `int`). -/
def digitsVal (ds : List Nat) : Nat := ds.foldl (fun a d => a * 10 + (d - 48)) 0

/-- Sort key of a section stream name:
`int(re.search(r'(\d+)$', name).group(1)) if ... else 0`. -/
def numericSuffixKey (s : List Nat) : Nat :=
  match trailingDigits s with
  | [] => 0
  | ds => digitsVal ds

/-- An OLE container as seen through the `olefile` calls the source makes:
whether `olefile.isOleFile` accepts the file, and the `listdir()` streams
in order, each a component path with its `openstream(...).read()` bytes. -/
structure OleModel where
  valid : Bool
  streams : List (List (List Nat) × List Nat)

/-- `ole.openstream("FileHeader").read()` guarded by `ole.exists`. -/
def oleFileHeader (m : OleModel) : Option (List Nat) :=
  (m.streams.find? (fun s => s.1 == [strN "FileHeader"])).map (·.2)

/-- Compression flag: byte 36 of the FileHeader stream, bit 0, with the
source's `len(header_data) > 36` guard; `False` when the stream is absent. -/
def hwpIsCompressed (m : OleModel) : Bool :=
  match oleFileHeader m with
  | some hd => decide (36 < hd.length) && decide (hd.getD 36 0 % 2 = 1)
  | none => false

/-- The `listdir()` entries whose slash-joined path starts with
`"BodyText/Section"`, in listing order. -/
def bodySectionStreams (m : OleModel) : List (List (List Nat) × List Nat) :=
  m.streams.filter (fun s => (strN "BodyText/Section").isPrefixOf (joinSep 47 s.1))

/-- The key-comparison relation of `section_streams.sort(key=...)`: compare
the numeric suffix of the last path component. -/
def sectKeyLe (a b : List (List Nat) × List Nat) : Prop :=
  numericSuffixKey (a.1.getLastD []) ≤ numericSuffixKey (b.1.getLastD [])

instance : DecidableRel sectKeyLe := fun _ _ => Nat.decLe _ _

instance : IsTotal (List (List Nat) × List Nat) sectKeyLe :=
  ⟨fun _ _ => Nat.le_total _ _⟩

instance : IsTrans (List (List Nat) × List Nat) sectKeyLe :=
  ⟨fun _ _ _ h1 h2 => Nat.le_trans h1 h2⟩

/-- `FileParser._parse_hwp`.  `olefile` is reflected by `OleModel`; the raw
deflate decompressor `zlib.decompress(data, -15)` is an external effect and
is passed in as a function (`.error` models `zlib.error`, upon which the
section is skipped). -/
def parseHwpM (inflate : List Nat → Except (List Nat) (List Nat)) (m : OleModel) :
    List Nat :=
  if !m.valid then strN "[파싱 오류] 유효하지 않은 HWP 파일입니다."
  else
    let sorted := List.insertionSort sectKeyLe (bodySectionStreams m)
    if sorted = [] then strN "[파싱 오류] HWP 파일에 BodyText가 없습니다."
    else
      joinNL (sorted.filterMap (fun s =>
        match (if hwpIsCompressed m then inflate s.2 else .ok s.2) with
        | .error _ => none
        | .ok d =>
          let t := extractTextFromHwpRecords d
          if t = [] then none else some t))

/-- Lexicographic string comparison on code points, the order Python uses
for `sorted()` over file names. -/
def lexLe : List Nat → List Nat → Bool
  | [], _ => true
  | _ :: _, [] => false
  | a :: s, b :: t => a < b || (a = b && lexLe s t)

/-- The `sorted(...)` relation over entry names. -/
def lexRel (a b : List Nat) : Prop := lexLe a b = true

instance : DecidableRel lexRel := fun a b =>
  inferInstanceAs (Decidable (lexLe a b = true))

instance : IsTotal (List Nat) lexRel where
  total a b := by
    induction a generalizing b with
    | nil => exact Or.inl rfl
    | cons x s ih =>
      cases b with
      | nil => exact Or.inr rfl
      | cons y t =>
        rcases Nat.lt_trichotomy x y with h | h | h
        · exact Or.inl (by simp [lexRel, lexLe, h])
        · subst h
          rcases ih t with ht | ht
          · exact Or.inl (by simp [lexRel, lexLe]; exact ht)
          · exact Or.inr (by simp [lexRel, lexLe]; exact ht)
        · exact Or.inr (by simp [lexRel, lexLe, h])

instance : IsTrans (List Nat) lexRel where
  trans := by
    intro a
    induction a with
    | nil => intro b c _ _; exact rfl
    | cons x s ih =>
      intro b c hab hbc
      match b, c with
      | [], _ => exact absurd hab (by simp [lexRel, lexLe])
      | _ :: _, [] => exact absurd hbc (by simp [lexRel, lexLe])
      | y :: t, z :: u =>
        simp only [lexRel, lexLe, Bool.or_eq_true, Bool.and_eq_true,
          decide_eq_true_eq] at hab hbc ⊢
        rcases hab with h1 | ⟨he1, h1⟩
        · rcases hbc with h2 | ⟨he2, h2⟩
          · exact Or.inl (Nat.lt_trans h1 h2)
          · exact Or.inl (he2 ▸ h1)
        · rcases hbc with h2 | ⟨he2, h2⟩
          · exact Or.inl (he1 ▸ h2)
          · exact Or.inr ⟨he1.trans he2, ih t u h1 h2⟩

/-- A zip archive as seen through the `zipfile` calls the source makes:
whether `zipfile.ZipFile` opens it (else `BadZipFile`), and the
`namelist()` entries in order with their `read()` bytes. -/
structure ZipModel where
  valid : Bool
  entries : List (List Nat × List Nat)

/-- `zf.read(name)`: bytes of the first entry with the given name. -/
def zipRead (m : ZipModel) (name : List Nat) : List Nat :=
  match m.entries.find? (fun e => e.1 == name) with
  | some e => e.2
  | none => []

/-- The entry-name test `re.match(r'Contents/section\d+\.xml', f,
re.IGNORECASE)`: `re.match` anchors only at the start, so the name must
begin (case-insensitively) with `Contents/section`, then one or more
digits, then `.xml`, with anything allowed after. -/
def matchesSectionXml (f : List Nat) : Bool :=
  let g := pyLowerAscii f
  (strN "contents/section").isPrefixOf g &&
    (let r := g.drop 16
     !(r.takeWhile isDigitB).isEmpty &&
       (strN ".xml").isPrefixOf (r.dropWhile isDigitB))

/-- The fallback entry test: `f.startswith("Contents/") and
f.endswith(".xml")` (case-sensitive). -/
def hwpxFallbackEntry (f : List Nat) : Bool :=
  (strN "Contents/").isPrefixOf f && (strN ".xml").isSuffixOf f

/-- `FileParser._parse_hwpx`.  The XML text collection
`_extract_text_from_hwpx_xml` never takes part in entry selection or
ordering and is passed in as a function over the entry bytes. -/
def parseHwpxM (extractXml : List Nat → List Nat) (m : ZipModel) : List Nat :=
  if !m.valid then strN "[파싱 오류] 유효하지 않은 HWPX 파일입니다."
  else
    let names := m.entries.map (·.1)
    let primary := List.insertionSort lexRel (names.filter matchesSectionXml)
    let sectionFiles :=
      if primary = [] then List.insertionSort lexRel (names.filter hwpxFallbackEntry)
      else primary
    if sectionFiles = [] then strN "[파싱 오류] HWPX 파일에 본문 섹션이 없습니다."
    else
      joinNL (sectionFiles.filterMap (fun f =>
        let t := extractXml (zipRead m f)
        if t = [] then none else some t))

/-- `FileParser._parse_pdf`.  `pdfplumber.open` either raises (the caught
exception message) or yields the page list; each page contributes
`page.extract_text()`, modelled as a string whose emptiness covers both
`None` and `""` (the `if page_text:` truthiness test). -/
def parsePdfM (openResult : Except (List Nat) (List (List Nat))) : List Nat :=
  match openResult with
  | .error e => strN "[파싱 오류] PDF 파일을 열 수 없습니다: " ++ e
  | .ok pages =>
    let extracted := pages.filter (fun p => !p.isEmpty)
    if extracted = [] then
      strN "[수동 확인 필요] 이 PDF는 이미지 기반 문서입니다. 텍스트를 추출할 수 없습니다."
    else joinNL extracted

/-- Detector for a run of three or more newlines: whether the text contains
three consecutive newline characters (the match condition of the regex
`\n{3,}`).  Used to reason about the normalizer. -/
def hasTriple : List Nat → Bool
  | a :: b :: c :: t => (a = 10 && b = 10 && c = 10) || hasTriple (b :: c :: t)
  | _ => false

/-- Whether a line list has no two adjacent empty lines.  Used to reason
about the normalizer. -/
def noAdjEmpty : List (List Nat) → Bool
  | a :: b :: t => !(a.isEmpty && b.isEmpty) && noAdjEmpty (b :: t)
  | _ => true

/-- Drop the empty lines at the front of a line list. -/
def dropEmptyFront (M : List (List Nat)) : List (List Nat) :=
  M.dropWhile List.isEmpty

/-- Drop the empty lines at both ends of a line list. -/
def trimEmpty (M : List (List Nat)) : List (List Nat) :=
  (dropEmptyFront M).rdropWhile List.isEmpty

/-! ### Claim C1: dispatcher contract -/

/-- C1.  For every path: a non-existing path raises MissingFile
(`FileNotFoundError`); an existing path whose lower-cased extension is not
in `{.hwp, .hwpx, .pdf}` raises UnsupportedFormat (`ValueError`); otherwise
`parse` always returns a string, and an exception raised inside the chosen
extractor is converted into a string carrying the parse-error sentinel
prefix (the source literal `[파싱 오류] `, rendered `[parse error]` in the
specification) rather than propagated. -/
theorem parse_dispatch_contract (pathExists : List Nat → Bool)
    (hwpF hwpxF pdfF : List Nat → Except (List Nat) (List Nat)) (p : List Nat) :
    (pathExists p = false →
      parseDispatch pathExists hwpF hwpxF pdfF p = .error .missingFile) ∧
    (pathExists p = true → pyLowerAscii (pySplitextExt p) ∉ supportedExtensions →
      parseDispatch pathExists hwpF hwpxF pdfF p = .error .unsupportedFormat) ∧
    (pathExists p = true → pyLowerAscii (pySplitextExt p) ∈ supportedExtensions →
      ((∃ e, dispatchExtractor hwpF hwpxF pdfF (pyLowerAscii (pySplitextExt p)) p = .error e ∧
          parseDispatch pathExists hwpF hwpxF pdfF p =
            .ok (strN "[파싱 오류] " ++ parseFailMessage (pyLowerAscii (pySplitextExt p)) e)) ∨
        (∃ t, dispatchExtractor hwpF hwpxF pdfF (pyLowerAscii (pySplitextExt p)) p = .ok t ∧
          parseDispatch pathExists hwpF hwpxF pdfF p = .ok (cleanText t)))) := by
  refine ⟨fun h => by simp [parseDispatch, h], fun h hn => by simp [parseDispatch, h, hn], ?_⟩
  intro h hm
  cases hd : dispatchExtractor hwpF hwpxF pdfF (pyLowerAscii (pySplitextExt p)) p with
  | error e => exact Or.inl ⟨e, rfl, by simp [parseDispatch, h, hm, hd]⟩
  | ok t => exact Or.inr ⟨t, rfl, by simp [parseDispatch, h, hm, hd]⟩

/-- Witness for C1 at concrete inputs: a missing file, an existing `.txt`
file, and an existing `.hwp` file with an extractor that raises. -/
theorem parse_dispatch_contract_wit :
    parseDispatch (fun _ => false) (fun _ => .ok []) (fun _ => .ok []) (fun _ => .ok [])
        (strN "a.hwp") = .error .missingFile ∧
    parseDispatch (fun _ => true) (fun _ => .ok []) (fun _ => .ok []) (fun _ => .ok [])
        (strN "a.txt") = .error .unsupportedFormat ∧
    ((∃ e, dispatchExtractor (fun _ => .error [98]) (fun _ => .ok []) (fun _ => .ok [])
          (pyLowerAscii (pySplitextExt (strN "a.HWP"))) (strN "a.HWP") = .error e ∧
        parseDispatch (fun _ => true) (fun _ => .error [98]) (fun _ => .ok []) (fun _ => .ok [])
            (strN "a.HWP") =
          .ok (strN "[파싱 오류] " ++
            parseFailMessage (pyLowerAscii (pySplitextExt (strN "a.HWP"))) e)) ∨
      (∃ t, dispatchExtractor (fun _ => .error [98]) (fun _ => .ok []) (fun _ => .ok [])
          (pyLowerAscii (pySplitextExt (strN "a.HWP"))) (strN "a.HWP") = .ok t ∧
        parseDispatch (fun _ => true) (fun _ => .error [98]) (fun _ => .ok []) (fun _ => .ok [])
            (strN "a.HWP") = .ok (cleanText t))) :=
  ⟨(parse_dispatch_contract _ _ _ _ _).1 rfl,
   (parse_dispatch_contract _ _ _ _ _).2.1 rfl (by decide),
   (parse_dispatch_contract _ _ _ _ _).2.2 rfl (by decide)⟩

/-! ### Claims C2 and C6: payload text decoding -/

/-- Helper: one decoding step of `_decode_hwp_text` on a leading two-byte
little-endian unit. -/
theorem decodeHwpText_unit (u : Nat) (t : List Nat) (hu : u < 65536) :
    decodeHwpText (le16enc u ++ t) =
      (if u = 13 then [10] else if u ≤ 31 then [] else [u]) ++ decodeHwpText t := by
  have hc : u % 256 + 256 * (u / 256 % 256) = u := by omega
  simp only [le16enc, List.cons_append, List.nil_append, decodeHwpText, hc]
  by_cases h13 : u = 13
  · simp [h13]
  · by_cases h31 : u ≤ 31 <;> simp [h13, h31]

/-- C6.  Decoding a payload built from two-byte little-endian code units:
the unit `0x000D` emits a newline, every other unit at or below `0x001F`
emits nothing, any other unit is emitted as its code point, and exactly one
unit is consumed per step in every case (in particular for the extended
control codes, which take the same fixed-width step). -/
theorem decode_unit_semantics (us : List Nat) (h : ∀ u ∈ us, u < 65536) :
    decodeHwpText (us.flatMap le16enc) =
      us.flatMap (fun u => if u = 13 then [10] else if u ≤ 31 then [] else [u]) := by
  induction us with
  | nil => rfl
  | cons u us ih =>
    have hu : u < 65536 := h u (List.mem_cons_self u us)
    have ht : ∀ v ∈ us, v < 65536 := fun v hv => h v (List.mem_cons_of_mem u hv)
    simp only [List.flatMap_cons, decodeHwpText_unit u _ hu, ih ht]

/-- Witness for C6: a payload with a glyph, a paragraph break, an extended
field-start control (`0x0003`) and a second glyph decodes to
`glyph, newline, glyph` with one unit consumed per control. -/
theorem decode_unit_semantics_wit :
    (∀ u ∈ [44032, 13, 3, 44033], u < 65536) ∧
    decodeHwpText (List.flatMap [44032, 13, 3, 44033] le16enc) = [44032, 10, 44033] :=
  ⟨by decide, by rw [decode_unit_semantics [44032, 13, 3, 44033] (by decide)]; decide⟩

/-- C2 fails outside the Basic Multilingual Plane: the code point
`U+10000` encodes as the surrogate pair `0xD800 0xDC00`, neither unit is a
reserved control code, yet the decoder (which applies `chr` per unit)
returns the two surrogate code points instead of the original character. -/
theorem decode_utf16_roundtrip_cex :
    (∀ u ∈ utf16Units [65536], ¬u ≤ 31) ∧
    decodeHwpText (utf16leBytes [65536]) = [55296, 56320] ∧
    decodeHwpText (utf16leBytes [65536]) ≠ [65536] := by
  refine ⟨by decide, by decide, by decide⟩

/-- C2 amended.  For every Unicode string whose code points are scalar
values in the Basic Multilingual Plane (below `0x10000`, not surrogates)
and above the reserved control range `0x001F`, decoding the UTF-16LE bytes
reproduces the string exactly. -/
theorem decode_utf16_roundtrip_bmp (s : List Nat)
    (h : ∀ c ∈ s, 31 < c ∧ c < 65536 ∧ ¬(55296 ≤ c ∧ c ≤ 57343)) :
    decodeHwpText (utf16leBytes s) = s := by
  induction s with
  | nil => rfl
  | cons c cs ih =>
    obtain ⟨h31, hbmp, -⟩ := h c (List.mem_cons_self c cs)
    have hcs : decodeHwpText (utf16leBytes cs) = cs :=
      ih fun v hv => h v (List.mem_cons_of_mem c hv)
    have : utf16leBytes (c :: cs) = le16enc c ++ utf16leBytes cs := by
      simp [utf16leBytes, utf16Units, hbmp]
    rw [this, decodeHwpText_unit c _ hbmp]
    have hne : ¬c = 13 := by omega
    have hgt : ¬c ≤ 31 := by omega
    simp [hne, hgt, hcs]

/-- Witness for C2 amended at a concrete BMP string (Korean syllables and
an ASCII letter). -/
theorem decode_utf16_roundtrip_bmp_wit :
    (∀ c ∈ [44032, 97, 55203], 31 < c ∧ c < 65536 ∧ ¬(55296 ≤ c ∧ c ≤ 57343)) ∧
    decodeHwpText (utf16leBytes [44032, 97, 55203]) = [44032, 97, 55203] :=
  ⟨by decide, decode_utf16_roundtrip_bmp [44032, 97, 55203] (by decide)⟩

/-! ### Claims C4, C7, C10: record tokenization -/

/-- Helper: the loop result does not depend on the fuel once the fuel
reaches the byte count (each iteration consumes at least four bytes). -/
theorem hwpRecordsLoop_fuel : ∀ (f1 f2 : Nat) (data : List Nat),
    data.length ≤ f1 → data.length ≤ f2 →
    hwpRecordsLoop f1 data = hwpRecordsLoop f2 data := by
  intro f1
  induction f1 with
  | zero =>
    intro f2 data h1 _
    have hd : data = [] := List.eq_nil_of_length_eq_zero (Nat.le_zero.mp h1)
    subst hd; cases f2 <;> rfl
  | succ f1 ih =>
    intro f2 data h1 h2
    match data with
    | [] => cases f2 <;> rfl
    | [b0] => cases f2 with | zero => simp at h2 | succ _ => rfl
    | [b0, b1] => cases f2 with | zero => simp at h2 | succ _ => rfl
    | [b0, b1, b2] => cases f2 with | zero => simp at h2 | succ _ => rfl
    | b0 :: b1 :: b2 :: b3 :: rest =>
      simp only [List.length_cons] at h1 h2
      cases f2 with
      | zero => omega
      | succ f2 =>
        simp only [hwpRecordsLoop]
        split
        · split
          · split
            · refine congrArg _ (ih f2 _ ?_ ?_) <;>
                simp only [List.length_drop] <;>
                simp only [List.length_cons] at h1 h2 <;> omega
            · rfl
          · rfl
        · split
          · refine congrArg _ (ih f2 _ ?_ ?_) <;> simp only [List.length_drop] <;> omega
          · rfl

/-- Helper: scan step for a plain header (size field below the escape
value): one record of `size` payload bytes is produced and the cursor
advances past it. -/
theorem hwpRecords_cons_plain (h : Nat) (rest : List Nat) (hw : h < 4294967296)
    (hne : h / 1048576 % 4096 ≠ 4095) (hsz : h / 1048576 % 4096 ≤ rest.length) :
    hwpRecords (le32enc h ++ rest) =
      (h % 1024, rest.take (h / 1048576 % 4096)) ::
        hwpRecords (rest.drop (h / 1048576 % 4096)) := by
  have hdec : h % 256 + 256 * (h / 256 % 256) + 65536 * (h / 65536 % 256) +
      16777216 * (h / 16777216 % 256) = h := by omega
  have hform : le32enc h ++ rest =
      h % 256 :: h / 256 % 256 :: h / 65536 % 256 :: h / 16777216 % 256 :: rest := by
    simp [le32enc]
  rw [hwpRecords, hform]
  simp only [List.length_cons, hwpRecordsLoop, hdec]
  rw [if_neg hne, if_pos hsz]
  exact congrArg _ (hwpRecordsLoop_fuel _ _ _
    (by simp only [List.length_drop]; omega) (by simp only [List.length_drop]; omega))

/-- Helper: scan step for an escaped header (size field `0xFFF`): the true
payload size is the little-endian word following the header. -/
theorem hwpRecords_cons_escape (h s2 : Nat) (rest2 : List Nat) (hw : h < 4294967296)
    (hesc : h / 1048576 % 4096 = 4095) (hs2 : s2 < 4294967296) (hsz : s2 ≤ rest2.length) :
    hwpRecords (le32enc h ++ le32enc s2 ++ rest2) =
      (h % 1024, rest2.take s2) :: hwpRecords (rest2.drop s2) := by
  have hdec : h % 256 + 256 * (h / 256 % 256) + 65536 * (h / 65536 % 256) +
      16777216 * (h / 16777216 % 256) = h := by omega
  have hdec2 : s2 % 256 + 256 * (s2 / 256 % 256) + 65536 * (s2 / 65536 % 256) +
      16777216 * (s2 / 16777216 % 256) = s2 := by omega
  have hform : le32enc h ++ le32enc s2 ++ rest2 =
      h % 256 :: h / 256 % 256 :: h / 65536 % 256 :: h / 16777216 % 256 ::
        s2 % 256 :: s2 / 256 % 256 :: s2 / 65536 % 256 :: s2 / 16777216 % 256 :: rest2 := by
    simp [le32enc]
  rw [hwpRecords, hform]
  simp only [List.length_cons, hwpRecordsLoop, hdec, hdec2]
  rw [if_pos hesc, if_pos hsz]
  exact congrArg _ (hwpRecordsLoop_fuel _ _ _
    (by simp only [List.length_drop]; omega) (by simp only [List.length_drop]; omega))

/-- Helper: scanning a serialized record followed by any continuation
yields that record and continues on the continuation. -/
theorem hwpRecords_build (t : Nat) (p rest : List Nat) (ht : t < 1024)
    (hp : p.length < 4294967296) :
    hwpRecords (buildRecord t p ++ rest) = (t, p) :: hwpRecords rest := by
  by_cases hs : p.length < 4095
  · have h1 : buildRecord t p ++ rest = le32enc (t + 1048576 * p.length) ++ (p ++ rest) := by
      simp [buildRecord, hs]
    have e2 : (t + 1048576 * p.length) % 1024 = t := by omega
    have e3 : (t + 1048576 * p.length) / 1048576 % 4096 = p.length := by omega
    rw [h1, hwpRecords_cons_plain _ _ (by omega) (by omega) (by rw [e3]; simp)]
    rw [e2, e3, List.take_left, List.drop_left]
  · have h1 : buildRecord t p ++ rest =
        le32enc (t + 1048576 * 4095) ++ (le32enc p.length ++ (p ++ rest)) := by
      simp [buildRecord, hs]
    have e2 : (t + 1048576 * 4095) % 1024 = t := by omega
    have e3 : (t + 1048576 * 4095) / 1048576 % 4096 = 4095 := by omega
    rw [h1, ← List.append_assoc,
      hwpRecords_cons_escape _ _ _ (by omega) e3 hp (by simp)]
    rw [e2, List.take_left, List.drop_left]

/-- C4.  Record header decomposition: for every 32-bit header word the
source's mask-and-shift expressions `header & 0x3FF` (tagId, bits 0-9),
`(header >> 10) & 0x3FF` (level, bits 10-19, computed here although the
source leaves the line commented out as unused) and `(header >> 20) &
0xFFF` (size, bits 20-31) partition the word exactly; the scan consumes a
plain record accordingly, and whenever the size field is `0xFFF` the true
payload size is instead the 4-byte little-endian word following the
header. -/
theorem record_header_fields (h : Nat) (hw : h < 4294967296) :
    (h % 1024 + 1024 * (h / 1024 % 1024) + 1048576 * (h / 1048576 % 4096) = h ∧
      h % 1024 < 1024 ∧ h / 1024 % 1024 < 1024 ∧ h / 1048576 % 4096 < 4096) ∧
    (∀ rest : List Nat, h / 1048576 % 4096 ≠ 4095 → h / 1048576 % 4096 ≤ rest.length →
      hwpRecords (le32enc h ++ rest) =
        (h % 1024, rest.take (h / 1048576 % 4096)) ::
          hwpRecords (rest.drop (h / 1048576 % 4096))) ∧
    (∀ (s2 : Nat) (rest2 : List Nat), h / 1048576 % 4096 = 4095 →
      s2 < 4294967296 → s2 ≤ rest2.length →
      hwpRecords (le32enc h ++ le32enc s2 ++ rest2) =
        (h % 1024, rest2.take s2) :: hwpRecords (rest2.drop s2)) :=
  ⟨⟨by omega, by omega, by omega, by omega⟩,
   fun rest hne hsz => hwpRecords_cons_plain h rest hw hne hsz,
   fun s2 rest2 hesc hs2 hsz => hwpRecords_cons_escape h s2 rest2 hw hesc hs2 hsz⟩

/-- Witness for C4: a concrete plain header (tagId 67, level 1, size 2) and
a concrete escaped header (size field `0xFFF`, true size 3 from the
following word). -/
theorem record_header_fields_wit :
    hwpRecords (le32enc (67 + 1024 * 1 + 1048576 * 2) ++ [5, 6, 7]) =
      (67, [5, 6]) :: hwpRecords [7] ∧
    hwpRecords (le32enc (67 + 1048576 * 4095) ++ le32enc 3 ++ [5, 6, 7, 8]) =
      (67, [5, 6, 7]) :: hwpRecords [8] :=
  ⟨(record_header_fields (67 + 1024 * 1 + 1048576 * 2) (by decide)).2.1
      [5, 6, 7] (by decide) (by decide),
   (record_header_fields (67 + 1048576 * 4095) (by decide)).2.2
      3 [5, 6, 7, 8] (by decide) (by decide) (by decide)⟩

/-- C7 fails as stated: a text-kind record whose decoded text is
whitespace-only (a single blank payload) contributes nothing, so two
text-kind records do not both contribute their full decoded text. -/
theorem text_records_cex :
    extractTextFromHwpRecords (buildRecord 67 [32, 0] ++ buildRecord 67 [97, 0]) = [97] ∧
    joinNL [decodeHwpText [32, 0], decodeHwpText [97, 0]] = [32, 10, 97] ∧
    ([97] : List Nat) ≠ [32, 10, 97] := by
  refine ⟨by decide, by decide, by decide⟩

/-- C7 amended.  In a stream of serialized records, every record with
`tagId = 67` whose decoded text does not strip to the empty string
contributes its full decoded text, concatenated with newlines in stream
order; text-kind records with whitespace-only decoded text are skipped, and
records of any other tag contribute nothing regardless of payload. -/
theorem text_records_amended (rs : List (Nat × List Nat))
    (h : ∀ r ∈ rs, r.1 < 1024 ∧ r.2.length < 4294967296) :
    extractTextFromHwpRecords ((rs.map (fun r => buildRecord r.1 r.2)).flatten) =
      joinNL (rs.filterMap (fun r =>
        if r.1 = 67 then
          if pyStrip (decodeHwpText r.2) = [] then none else some (decodeHwpText r.2)
        else none)) := by
  have hrec : hwpRecords ((rs.map (fun r => buildRecord r.1 r.2)).flatten) = rs := by
    induction rs with
    | nil => rfl
    | cons r rs ih =>
      obtain ⟨ht, hp⟩ := h r (List.mem_cons_self r rs)
      rw [List.map_cons, List.flatten_cons, hwpRecords_build r.1 r.2 _ ht hp,
        ih fun v hv => h v (List.mem_cons_of_mem r hv)]
  rw [extractTextFromHwpRecords, hrec]
  rfl

/-- Witness for C7 amended: three records (blank text record, non-text
record, real text record) produce exactly the one real text. -/
theorem text_records_amended_wit :
    (∀ r ∈ [((67 : Nat), [32, 0]), (16, [65, 0]), (67, [97, 0])],
      r.1 < 1024 ∧ r.2.length < 4294967296) ∧
    extractTextFromHwpRecords
        (([((67 : Nat), [32, 0]), (16, [65, 0]), (67, [97, 0])].map
          (fun r => buildRecord r.1 r.2)).flatten) =
      joinNL ([((67 : Nat), [32, 0]), (16, [65, 0]), (67, [97, 0])].filterMap (fun r =>
        if r.1 = 67 then
          if pyStrip (decodeHwpText r.2) = [] then none else some (decodeHwpText r.2)
        else none)) :=
  ⟨by decide, text_records_amended _ (by decide)⟩

/-- C10.  The record scan is total on every byte string (it is a Lean
function); each produced record consumes at least the four header bytes,
so at most `length / 4` records arise, and every payload is a contiguous
slice of the input buffer — a record whose declared payload would extend
past the end stops the scan instead of reading out of bounds. -/
theorem hwpRecordsLoop_bounds : ∀ (fuel : Nat) (data : List Nat), data.length ≤ fuel →
    4 * (hwpRecordsLoop fuel data).length ≤ data.length ∧
    ∀ r ∈ hwpRecordsLoop fuel data, ∃ pre suf, data = pre ++ r.2 ++ suf := by
  intro fuel
  induction fuel with
  | zero => exact fun data _ => ⟨by simp [hwpRecordsLoop], by simp [hwpRecordsLoop]⟩
  | succ fuel ih =>
    intro data hfuel
    match data with
    | [] => exact ⟨by simp [hwpRecordsLoop], by simp [hwpRecordsLoop]⟩
    | [b0] => exact ⟨by simp [hwpRecordsLoop], by simp [hwpRecordsLoop]⟩
    | [b0, b1] => exact ⟨by simp [hwpRecordsLoop], by simp [hwpRecordsLoop]⟩
    | [b0, b1, b2] => exact ⟨by simp [hwpRecordsLoop], by simp [hwpRecordsLoop]⟩
    | b0 :: b1 :: b2 :: b3 :: rest =>
      simp only [List.length_cons] at hfuel
      simp only [hwpRecordsLoop]
      split
      · split
        · rename_i c0 c1 c2 c3 rest2
          split
          · rename_i hle
            simp only [List.length_cons] at hfuel
            obtain ⟨ihl, ihm⟩ :=
              ih (rest2.drop (c0 + 256 * c1 + 65536 * c2 + 16777216 * c3))
                (by simp only [List.length_drop]; omega)
            constructor
            · simp only [List.length_cons, List.length_drop] at ihl ⊢
              omega
            · intro r hr
              rcases List.mem_cons.mp hr with hEq | hMem
              · subst hEq
                refine ⟨[b0, b1, b2, b3, c0, c1, c2, c3],
                  rest2.drop (c0 + 256 * c1 + 65536 * c2 + 16777216 * c3), ?_⟩
                simp [List.take_append_drop]
              · obtain ⟨pre, suf, hps⟩ := ihm r hMem
                refine ⟨[b0, b1, b2, b3] ++
                  (c0 :: c1 :: c2 :: c3 ::
                    rest2.take (c0 + 256 * c1 + 65536 * c2 + 16777216 * c3)) ++ pre, suf, ?_⟩
                conv_lhs => rw [← List.take_append_drop
                  (c0 + 256 * c1 + 65536 * c2 + 16777216 * c3) rest2, hps]
                simp [List.append_assoc]
          · exact ⟨by simp, by simp⟩
        · exact ⟨by simp, by simp⟩
      · split
        · rename_i hle
          obtain ⟨ihl, ihm⟩ := ih
            (rest.drop ((b0 + 256 * b1 + 65536 * b2 + 16777216 * b3) / 1048576 % 4096))
            (by simp only [List.length_drop]; omega)
          constructor
          · simp only [List.length_cons, List.length_drop] at ihl ⊢
            omega
          · intro r hr
            rcases List.mem_cons.mp hr with hEq | hMem
            · subst hEq
              refine ⟨[b0, b1, b2, b3],
                rest.drop ((b0 + 256 * b1 + 65536 * b2 + 16777216 * b3) / 1048576 % 4096), ?_⟩
              simp [List.take_append_drop]
            · obtain ⟨pre, suf, hps⟩ := ihm r hMem
              refine ⟨[b0, b1, b2, b3] ++
                rest.take ((b0 + 256 * b1 + 65536 * b2 + 16777216 * b3) / 1048576 % 4096) ++
                  pre, suf, ?_⟩
              conv_lhs => rw [← List.take_append_drop
                ((b0 + 256 * b1 + 65536 * b2 + 16777216 * b3) / 1048576 % 4096) rest, hps]
              simp [List.append_assoc]
        · exact ⟨by simp, by simp⟩

/-- C10.  The record scan is total on every byte string (it is a Lean
function); each produced record consumes at least the four header bytes,
so at most a quarter of the byte count many records arise, and every
payload is a contiguous slice of the input buffer — a record whose
declared payload would extend past the end stops the scan instead of
reading out of bounds. -/
theorem tokenizer_bounds (data : List Nat) :
    4 * (hwpRecords data).length ≤ data.length ∧
    ∀ r ∈ hwpRecords data, ∃ pre suf, data = pre ++ r.2 ++ suf :=
  hwpRecordsLoop_bounds data.length data (Nat.le_refl _)

/-- Witness for C10 on a concrete buffer: a serialized record followed by
a truncated trailer still scans, the bound holds, and the one payload is a
slice of the buffer. -/
theorem tokenizer_bounds_wit :
    4 * (hwpRecords (buildRecord 67 [97, 0] ++ [1, 2])).length ≤
      (buildRecord 67 [97, 0] ++ [1, 2]).length ∧
    ((67 : Nat), [97, 0]) ∈ hwpRecords (buildRecord 67 [97, 0] ++ [1, 2]) ∧
    (∃ pre suf, buildRecord 67 [97, 0] ++ [1, 2] =
      pre ++ ((67 : Nat), [97, 0]).2 ++ suf) :=
  ⟨(tokenizer_bounds _).1, by decide,
   (tokenizer_bounds _).2 ((67 : Nat), [97, 0]) (by decide)⟩

/-! ### Claim C8: PDF page extraction -/

/-- C8.  For a PDF that opens successfully: if every page yields empty
extracted text the result is the manual-check sentinel (the source literal
`[수동 확인 필요] ...`, rendered `[manual check required] ...` in the
specification) — a non-empty string, returned rather than raised; if at
least one page yields text, the non-empty page texts are concatenated with
newlines in page order. -/
theorem pdf_scan_sentinel (pages : List (List Nat)) :
    ((∀ p ∈ pages, p = []) →
      parsePdfM (.ok pages) =
        strN "[수동 확인 필요] 이 PDF는 이미지 기반 문서입니다. 텍스트를 추출할 수 없습니다." ∧
      parsePdfM (.ok pages) ≠ []) ∧
    ((∃ p ∈ pages, p ≠ []) →
      parsePdfM (.ok pages) = joinNL (pages.filter (fun p => !p.isEmpty))) := by
  constructor
  · intro hall
    have hfilter : pages.filter (fun p => !p.isEmpty) = [] := by
      rw [List.filter_eq_nil_iff]
      intro p hp
      simp [hall p hp]
    constructor
    · simp [parsePdfM, hfilter]
    · simp [parsePdfM, hfilter, strN]
  · intro ⟨p, hp, hne⟩
    have hfilter : pages.filter (fun p => !p.isEmpty) ≠ [] := by
      rw [Ne, List.filter_eq_nil_iff]
      push_neg
      exact ⟨p, hp, by simpa using hne⟩
    simp [parsePdfM, hfilter]

/-- Witness for C8: an all-empty two-page document yields the sentinel; a
document with two text pages around an empty one concatenates them. -/
theorem pdf_scan_sentinel_wit :
    (parsePdfM (.ok [[], []]) =
        strN "[수동 확인 필요] 이 PDF는 이미지 기반 문서입니다. 텍스트를 추출할 수 없습니다." ∧
      parsePdfM (.ok [[], []]) ≠ []) ∧
    parsePdfM (.ok [[97], [], [98]]) =
      joinNL ([[97], [], [98]].filter (fun p => !p.isEmpty)) :=
  ⟨(pdf_scan_sentinel [[], []]).1 (by decide),
   (pdf_scan_sentinel [[97], [], [98]]).2 ⟨[97], by decide, by decide⟩⟩

/-! ### Claim C9: archive entry fallback -/

/-- C9.  For an opened archive in which no entry name matches the primary
pattern (`re.match(r'Contents/section\d+\.xml', ..., re.IGNORECASE)`,
anchored at the start only): if some entry starts with `Contents/` and
ends with `.xml`, text is extracted from exactly those fallback entries
(sorted by name); if there is none either, the result is the no-body
sentinel (the source literal `[파싱 오류] HWPX 파일에 본문 섹션이
없습니다.`, rendered `[parse error] no body sections found` in the
specification) — a non-empty string, returned rather than raised. -/
theorem hwpx_fallback_contract (extractXml : List Nat → List Nat) (m : ZipModel)
    (hv : m.valid = true)
    (hnone : ∀ n ∈ m.entries.map (·.1), matchesSectionXml n = false) :
    ((m.entries.map (·.1)).filter hwpxFallbackEntry = [] →
      parseHwpxM extractXml m = strN "[파싱 오류] HWPX 파일에 본문 섹션이 없습니다." ∧
      parseHwpxM extractXml m ≠ []) ∧
    ((m.entries.map (·.1)).filter hwpxFallbackEntry ≠ [] →
      parseHwpxM extractXml m =
        joinNL ((List.insertionSort lexRel
            ((m.entries.map (·.1)).filter hwpxFallbackEntry)).filterMap
          (fun f => if extractXml (zipRead m f) = [] then none
            else some (extractXml (zipRead m f))))) := by
  have hprimary : (m.entries.map (·.1)).filter matchesSectionXml = [] := by
    rw [List.filter_eq_nil_iff]
    intro n hn
    simp [hnone n hn]
  constructor
  · intro hfb
    constructor
    · simp [parseHwpxM, hv, hprimary, hfb]
    · simp [parseHwpxM, hv, hprimary, hfb, strN]
  · intro hfb
    have hsort : List.insertionSort lexRel
        ((m.entries.map (·.1)).filter hwpxFallbackEntry) ≠ [] := by
      intro hs
      exact hfb (((List.perm_insertionSort lexRel _).symm.trans (hs ▸ List.Perm.refl _)).eq_nil)
    simp [parseHwpxM, hv, hprimary, hsort]

/-- Witness for C9: an archive with only an unrelated entry yields the
sentinel; an archive with a non-canonical XML under `Contents/` yields its
text through the fallback. -/
theorem hwpx_fallback_contract_wit :
    (parseHwpxM (fun b => b) ⟨true, [(strN "Preview/p.png", [9])]⟩ =
        strN "[파싱 오류] HWPX 파일에 본문 섹션이 없습니다." ∧
      parseHwpxM (fun b => b) ⟨true, [(strN "Preview/p.png", [9])]⟩ ≠ []) ∧
    parseHwpxM (fun b => b) ⟨true, [(strN "Contents/other.xml", [120])]⟩ =
      joinNL ((List.insertionSort lexRel
          (([strN "Contents/other.xml"]).filter hwpxFallbackEntry)).filterMap
        (fun f => if (zipRead ⟨true, [(strN "Contents/other.xml", [120])]⟩ f) = [] then none
          else some (zipRead ⟨true, [(strN "Contents/other.xml", [120])]⟩ f))) :=
  ⟨(hwpx_fallback_contract (fun b => b) ⟨true, [(strN "Preview/p.png", [9])]⟩
      rfl (by decide)).1 (by decide),
   (hwpx_fallback_contract (fun b => b) ⟨true, [(strN "Contents/other.xml", [120])]⟩
      rfl (by decide)).2 (by decide)⟩

/-! ### Claim C5: section processing order -/

/-- C5 fails as stated for the archive format: with entries
`Contents/section9.xml` and `Contents/section10.xml` (in that listing
order) the extractor emits the text of `section10.xml` first, because
`sorted(...)` orders entry names lexicographically and `"1" < "9"`; the
claimed numeric-suffix order would put the text of `section9.xml` first. -/
theorem section_order_cex :
    parseHwpxM (fun b => b)
        ⟨true, [(strN "Contents/section9.xml", [57]),
                (strN "Contents/section10.xml", [49, 48])]⟩ = [49, 48, 10, 57] ∧
    ([49, 48, 10, 57] : List Nat) ≠ [57, 10, 49, 48] := by
  refine ⟨by decide, by decide⟩

/-- C5 amended.  Legacy body-section streams are processed in ascending
numeric-suffix order (so `Section10` after `Section9`) and their non-empty
extracted texts are joined with a line separator in that order; archive
XML entries, however, are processed in lexicographic filename order (so
`section10.xml` before `section9.xml`), their non-empty texts joined in
that order. -/
theorem section_order_amended :
    (∀ (inflate : List Nat → Except (List Nat) (List Nat)) (m : OleModel),
      m.valid = true → bodySectionStreams m ≠ [] →
      ∃ L, List.Perm L (bodySectionStreams m) ∧ L.Sorted sectKeyLe ∧
        parseHwpM inflate m = joinNL (L.filterMap (fun s =>
          match (if hwpIsCompressed m then inflate s.2 else Except.ok s.2) with
          | .error _ => none
          | .ok d => if extractTextFromHwpRecords d = [] then none
              else some (extractTextFromHwpRecords d)))) ∧
    (∀ (extractXml : List Nat → List Nat) (m : ZipModel),
      m.valid = true → (m.entries.map (·.1)).filter matchesSectionXml ≠ [] →
      ∃ L, List.Perm L ((m.entries.map (·.1)).filter matchesSectionXml) ∧
        L.Sorted lexRel ∧
        parseHwpxM extractXml m = joinNL (L.filterMap (fun f =>
          if extractXml (zipRead m f) = [] then none
          else some (extractXml (zipRead m f))))) := by
  constructor
  · intro inflate m hv hne
    refine ⟨List.insertionSort sectKeyLe (bodySectionStreams m),
      List.perm_insertionSort sectKeyLe _, List.sorted_insertionSort sectKeyLe _, ?_⟩
    have hsne : List.insertionSort sectKeyLe (bodySectionStreams m) ≠ [] := by
      intro hs
      exact hne (((List.perm_insertionSort sectKeyLe _).symm.trans
        (hs ▸ List.Perm.refl _)).eq_nil)
    simp [parseHwpM, hv, hsne]
  · intro extractXml m hv hne
    refine ⟨List.insertionSort lexRel ((m.entries.map (·.1)).filter matchesSectionXml),
      List.perm_insertionSort lexRel _, List.sorted_insertionSort lexRel _, ?_⟩
    have hsne : List.insertionSort lexRel
        ((m.entries.map (·.1)).filter matchesSectionXml) ≠ [] := by
      intro hs
      exact hne (((List.perm_insertionSort lexRel _).symm.trans
        (hs ▸ List.Perm.refl _)).eq_nil)
    have hpr : (if List.insertionSort lexRel
        ((m.entries.map (·.1)).filter matchesSectionXml) = [] then
          List.insertionSort lexRel ((m.entries.map (·.1)).filter hwpxFallbackEntry)
        else List.insertionSort lexRel
          ((m.entries.map (·.1)).filter matchesSectionXml)) =
        List.insertionSort lexRel ((m.entries.map (·.1)).filter matchesSectionXml) :=
      if_neg hsne
    simp [parseHwpxM, hv, hpr, hsne]

/-- Witness for C5 amended: a container whose streams are listed as
`Section10` before `Section9`, and an archive listing `section9.xml`
before `section10.xml`. -/
theorem section_order_amended_wit :
    (∃ L, List.Perm L (bodySectionStreams
        ⟨true, [([strN "BodyText", strN "Section10"], [2]),
                ([strN "BodyText", strN "Section9"], [1])]⟩) ∧
      L.Sorted sectKeyLe ∧
      parseHwpM (fun b => Except.ok b)
          ⟨true, [([strN "BodyText", strN "Section10"], [2]),
                  ([strN "BodyText", strN "Section9"], [1])]⟩ =
        joinNL (L.filterMap (fun s =>
          match (if hwpIsCompressed ⟨true, [([strN "BodyText", strN "Section10"], [2]),
                  ([strN "BodyText", strN "Section9"], [1])]⟩ then
                   (Except.ok s.2 : Except (List Nat) (List Nat))
                 else Except.ok s.2) with
          | .error _ => none
          | .ok d => if extractTextFromHwpRecords d = [] then none
              else some (extractTextFromHwpRecords d)))) ∧
    (∃ L, List.Perm L (([strN "Contents/section9.xml",
        strN "Contents/section10.xml"]).filter matchesSectionXml) ∧
      L.Sorted lexRel ∧
      parseHwpxM (fun b => b)
          ⟨true, [(strN "Contents/section9.xml", [57]),
                  (strN "Contents/section10.xml", [49, 48])]⟩ =
        joinNL (L.filterMap (fun f =>
          if (fun b => b) (zipRead ⟨true, [(strN "Contents/section9.xml", [57]),
              (strN "Contents/section10.xml", [49, 48])]⟩ f) = [] then none
          else some ((fun b => b) (zipRead ⟨true, [(strN "Contents/section9.xml", [57]),
              (strN "Contents/section10.xml", [49, 48])]⟩ f))))) :=
  ⟨section_order_amended.1 (fun b => Except.ok b)
      ⟨true, [([strN "BodyText", strN "Section10"], [2]),
              ([strN "BodyText", strN "Section9"], [1])]⟩ rfl (by decide),
   section_order_amended.2 (fun b => b)
      ⟨true, [(strN "Contents/section9.xml", [57]),
              (strN "Contents/section10.xml", [49, 48])]⟩ rfl (by decide)⟩

/-! ### Claim C3: normalizer idempotence — split/join infrastructure -/

/-- Helper: splitting never yields the empty list of lines. -/
theorem pySplitNL_ne_nil (s : List Nat) : pySplitNL s ≠ [] := by
  cases s with
  | nil => simp [pySplitNL]
  | cons c cs =>
    by_cases h : c = 10
    · simp [pySplitNL, h]
    · simp only [pySplitNL, if_neg h]
      cases pySplitNL cs <;> simp

/-- Helper: joining the split lines restores the string. -/
theorem joinNL_pySplitNL (s : List Nat) : joinNL (pySplitNL s) = s := by
  induction s with
  | nil => rfl
  | cons c cs ih =>
    by_cases h : c = 10
    · subst h
      simp only [pySplitNL, if_pos rfl]
      obtain ⟨l, ls, heq⟩ := List.exists_cons_of_ne_nil (pySplitNL_ne_nil cs)
      rw [heq] at ih ⊢
      simpa [joinNL, joinSep] using ih
    · simp only [pySplitNL, if_neg h]
      obtain ⟨l, ls, heq⟩ := List.exists_cons_of_ne_nil (pySplitNL_ne_nil cs)
      rw [heq] at ih ⊢
      cases ls with
      | nil => simpa [joinNL, joinSep] using ih
      | cons m ms => simpa [joinNL, joinSep] using ih

/-- Helper: no line produced by splitting contains a newline. -/
theorem pySplitNL_no_nl (s : List Nat) : ∀ l ∈ pySplitNL s, 10 ∉ l := by
  induction s with
  | nil => simp [pySplitNL]
  | cons c cs ih =>
    by_cases h : c = 10
    · simp only [pySplitNL, if_pos h]
      intro l hl
      rcases List.mem_cons.mp hl with rfl | hl
      · simp
      · exact ih l hl
    · simp only [pySplitNL, if_neg h]
      obtain ⟨m, ms, heq⟩ := List.exists_cons_of_ne_nil (pySplitNL_ne_nil cs)
      rw [heq]
      intro l hl
      rcases List.mem_cons.mp hl with rfl | hl
      · intro hmem
        rcases List.mem_cons.mp hmem with h10 | hmem
        · exact h h10.symm
        · exact ih m (heq ▸ List.mem_cons_self m ms) hmem
      · exact ih l (heq ▸ List.mem_cons_of_mem m hl)

/-- Helper: splitting a newline-free string yields that single line. -/
theorem pySplitNL_no_nl_eq (l : List Nat) (h : 10 ∉ l) : pySplitNL l = [l] := by
  induction l with
  | nil => rfl
  | cons c cs ih =>
    have hc : c ≠ 10 := fun hc => h (hc ▸ List.mem_cons_self c cs)
    have hcs : 10 ∉ cs := fun hm => h (List.mem_cons_of_mem c hm)
    simp [pySplitNL, hc, ih hcs]

/-- Helper: splitting a newline-free line glued before a newline peels the
line off. -/
theorem pySplitNL_append_cons (l t : List Nat) (h : 10 ∉ l) :
    pySplitNL (l ++ 10 :: t) = l :: pySplitNL t := by
  induction l with
  | nil => simp [pySplitNL]
  | cons c cs ih =>
    have hc : c ≠ 10 := fun hc => h (hc ▸ List.mem_cons_self c cs)
    have hcs : 10 ∉ cs := fun hm => h (List.mem_cons_of_mem c hm)
    simp [pySplitNL, hc, ih hcs]

/-- Helper: explicit two-line join equation. -/
theorem joinNL_cons_cons (l m : List Nat) (M : List (List Nat)) :
    joinNL (l :: m :: M) = l ++ 10 :: joinNL (m :: M) := rfl

/-- Helper: one-line join equation with an explicit tail test. -/
theorem joinNL_cons (l : List Nat) (M : List (List Nat)) :
    joinNL (l :: M) = l ++ (if M = [] then [] else 10 :: joinNL M) := by
  cases M with
  | nil => simp [joinNL, joinSep]
  | cons m ms => simp [joinNL_cons_cons]

/-- Helper: splitting the join of newline-free lines restores the lines. -/
theorem pySplitNL_joinNL (M : List (List Nat)) (h10 : ∀ l ∈ M, 10 ∉ l)
    (hne : M ≠ []) : pySplitNL (joinNL M) = M := by
  induction M with
  | nil => exact absurd rfl hne
  | cons l M ih =>
    cases M with
    | nil => exact pySplitNL_no_nl_eq l (h10 l (List.mem_cons_self l []))
    | cons m ms =>
      rw [joinNL_cons_cons,
        pySplitNL_append_cons l _ (h10 l (List.mem_cons_self l _)),
        ih (fun v hv => h10 v (List.mem_cons_of_mem l hv)) (by simp)]

/-- Helper: join of two non-empty line lists. -/
theorem joinNL_append (A B : List (List Nat)) (hA : A ≠ []) (hB : B ≠ []) :
    joinNL (A ++ B) = joinNL A ++ 10 :: joinNL B := by
  induction A with
  | nil => exact absurd rfl hA
  | cons a A ih =>
    cases A with
    | nil =>
      obtain ⟨b, B, rfl⟩ := List.exists_cons_of_ne_nil hB
      simp [joinNL_cons_cons, joinNL, joinSep]
    | cons a2 A2 =>
      have ih2 := ih (by simp)
      rw [List.cons_append] at ih2
      conv_lhs => rw [List.cons_append, List.cons_append, joinNL_cons_cons, ih2]
      rw [joinNL_cons_cons, List.append_assoc, List.cons_append]

/-! ### Claim C3: newline-run detector lemmas -/

/-- Helper: a triple is preserved by consing any character. -/
theorem hasTriple_cons_of_hasTriple (x : Nat) (t : List Nat)
    (h : hasTriple t = true) : hasTriple (x :: t) = true := by
  match t with
  | [] => simp [hasTriple] at h
  | [b] => simp [hasTriple] at h
  | b :: c :: u => simp [hasTriple, h]

/-- Helper: a non-newline head does not affect the triple detector. -/
theorem hasTriple_cons_of_ne (c : Nat) (t : List Nat) (hc : c ≠ 10) :
    hasTriple (c :: t) = hasTriple t := by
  match t with
  | [] => simp [hasTriple]
  | [b] => simp [hasTriple]
  | b :: d :: u => simp [hasTriple, hc]

/-- Helper: a non-newline second character does not affect the detector. -/
theorem hasTriple_cons_cons_of_ne (a b : Nat) (t : List Nat) (hb : b ≠ 10) :
    hasTriple (a :: b :: t) = hasTriple (b :: t) := by
  match t with
  | [] => simp [hasTriple]
  | d :: u => simp [hasTriple, hb]

/-- Helper: a newline-free block before the text does not affect the
detector. -/
theorem hasTriple_append_no_nl (l t : List Nat) (h : 10 ∉ l) :
    hasTriple (l ++ t) = hasTriple t := by
  induction l with
  | nil => rfl
  | cons c cs ih =>
    have hc : c ≠ 10 := fun hc => h (hc ▸ List.mem_cons_self c cs)
    rw [List.cons_append, hasTriple_cons_of_ne c _ hc,
      ih fun hm => h (List.mem_cons_of_mem c hm)]

/-- Helper: a triple in a suffix is a triple of the whole text. -/
theorem hasTriple_append_right (s t : List Nat) (h : hasTriple t = true) :
    hasTriple (s ++ t) = true := by
  induction s with
  | nil => exact h
  | cons c cs ih => exact hasTriple_cons_of_hasTriple c _ ih

/-- Helper: an explicit leading triple. -/
theorem hasTriple_head (t : List Nat) : hasTriple (10 :: 10 :: 10 :: t) = true := by
  simp [hasTriple]

/-- Helper: short newline runs carry no triple. -/
theorem hasTriple_replicate_le_two (k : Nat) (hk : k ≤ 2) :
    hasTriple (List.replicate k 10) = false := by
  match k, hk with
  | 0, _ => rfl
  | 1, _ => rfl
  | 2, _ => rfl

/-- Helper: a short newline run before a non-newline character does not
affect the detector. -/
theorem hasTriple_replicate_cons (k c : Nat) (R : List Nat) (hk : k ≤ 2)
    (hc : c ≠ 10) : hasTriple (List.replicate k 10 ++ c :: R) = hasTriple (c :: R) := by
  match k, hk with
  | 0, _ => rfl
  | 1, _ =>
    show hasTriple (10 :: c :: R) = _
    rw [hasTriple_cons_cons_of_ne _ _ _ hc]
  | 2, _ =>
    show hasTriple (10 :: 10 :: c :: R) = _
    match R with
    | [] => simp [hasTriple, hc]
    | d :: u => simp [hasTriple, hc, hasTriple_cons_cons_of_ne 10 c (d :: u) hc]

/-- Helper: the collapsed text never contains three consecutive newlines. -/
theorem collapseNLGo_no_triple : ∀ (cs : List Nat) (p : Nat),
    hasTriple (collapseNLGo p cs) = false := by
  intro cs
  induction cs with
  | nil =>
    intro p
    exact hasTriple_replicate_le_two _ (by split <;> omega)
  | cons c cs ih =>
    intro p
    by_cases hc : c = 10
    · simp only [collapseNLGo, if_pos hc]
      exact ih (p + 1)
    · simp only [collapseNLGo, if_neg hc, collapseEmit]
      rw [hasTriple_replicate_cons _ _ _ (by split <;> omega) hc,
        hasTriple_cons_of_ne _ _ hc]
      exact ih 0

/-! ### Claim C3: collapse identity and line preservation -/

/-- Helper: on text with no triple newline run after a short pending run,
the collapse worker is the identity. -/
theorem collapseNLGo_eq_self : ∀ (cs : List Nat) (p : Nat), p ≤ 2 →
    hasTriple (List.replicate p 10 ++ cs) = false →
    collapseNLGo p cs = List.replicate p 10 ++ cs := by
  intro cs
  induction cs with
  | nil =>
    intro p hp _
    show collapseEmit p = _
    rw [collapseEmit, if_neg (by omega), List.append_nil]
  | cons c cs ih =>
    intro p hp htr
    by_cases hc : c = 10
    · subst hc
      have hrep : List.replicate (p + 1) 10 ++ cs = List.replicate p 10 ++ 10 :: cs := by
        rw [List.replicate_succ', List.append_assoc]
        rfl
      have hp1 : p + 1 ≤ 2 := by
        rcases Nat.lt_or_ge p 2 with h | h
        · omega
        · exfalso
          have hp2 : p = 2 := by omega
          subst hp2
          rw [show List.replicate 2 10 ++ 10 :: cs = 10 :: 10 :: 10 :: cs from rfl,
            hasTriple_head] at htr
          simp at htr
      show collapseNLGo (p + 1) cs = _
      rw [ih (p + 1) hp1 (by rw [hrep]; exact htr), hrep]
    · simp only [collapseNLGo, if_neg hc, collapseEmit]
      rw [if_neg (show ¬3 ≤ p by omega)]
      have hcs : hasTriple cs = false := by
        by_contra hF
        have h0 : hasTriple cs = true := by revert hF; cases hasTriple cs <;> simp
        have h2 : hasTriple (List.replicate p 10 ++ c :: cs) = true :=
          hasTriple_append_right _ _ (hasTriple_cons_of_hasTriple c _ h0)
        rw [htr] at h2
        simp at h2
      rw [ih 0 (by omega) (by simpa using hcs)]
      rfl

/-- Helper: the collapse of text with no triple newline run is the text. -/
theorem collapseNL_eq_self (s : List Nat) (h : hasTriple s = false) :
    collapseNL s = s := by
  have := collapseNLGo_eq_self s 0 (by omega) (by simpa using h)
  simpa [collapseNL] using this

/-- Helper: with a pending newline the collapse worker emits a newline
first. -/
theorem collapseNLGo_head_nl : ∀ (cs : List Nat) (p : Nat), 1 ≤ p →
    ∃ r, collapseNLGo p cs = 10 :: r := by
  intro cs
  induction cs with
  | nil =>
    intro p hp
    rcases le_or_lt 3 p with h | h
    · exact ⟨[10], by simp [collapseNLGo, collapseEmit, h]⟩
    · match p, hp with
      | p + 1, _ =>
        refine ⟨List.replicate p 10, ?_⟩
        show collapseEmit (p + 1) = _
        rw [collapseEmit, if_neg (by omega), List.replicate_succ]
  | cons c cs ih =>
    intro p hp
    by_cases hc : c = 10
    · simp only [collapseNLGo, if_pos hc]
      exact ih (p + 1) (by omega)
    · simp only [collapseNLGo, if_neg hc, collapseEmit]
      rcases le_or_lt 3 p with h | h
      · exact ⟨10 :: c :: collapseNLGo 0 cs, by simp [h]⟩
      · match p, hp with
        | p + 1, _ =>
          refine ⟨List.replicate p 10 ++ c :: collapseNLGo 0 cs, ?_⟩
          rw [if_neg (by omega), List.replicate_succ]
          rfl

/-- Helper: head line of a split after a non-newline character. -/
theorem pySplitNL_head_cons (c : Nat) (u : List Nat) (hc : c ≠ 10) :
    (pySplitNL (c :: u)).headD [] = c :: (pySplitNL u).headD [] := by
  obtain ⟨h, t, heq⟩ := List.exists_cons_of_ne_nil (pySplitNL_ne_nil u)
  simp [pySplitNL, hc, heq]

/-- Helper: the collapse worker keeps the head line unchanged when no
newlines are pending. -/
theorem collapseNLGo_headD : ∀ cs : List Nat,
    (pySplitNL (collapseNLGo 0 cs)).headD [] = (pySplitNL cs).headD [] := by
  intro cs
  induction cs with
  | nil => rfl
  | cons c cs ih =>
    by_cases hc : c = 10
    · subst hc
      simp only [collapseNLGo, if_pos rfl]
      obtain ⟨r, hr⟩ := collapseNLGo_head_nl cs 1 (by omega)
      rw [hr]
      simp [pySplitNL]
    · simp only [collapseNLGo, if_neg hc, collapseEmit]
      rw [if_neg (by omega)]
      show (pySplitNL (c :: collapseNLGo 0 cs)).headD [] = _
      rw [pySplitNL_head_cons c _ hc, pySplitNL_head_cons c _ hc, ih]

/-- Helper: splitting after a leading newline run prepends empty lines. -/
theorem pySplitNL_replicate (k : Nat) (t : List Nat) :
    pySplitNL (List.replicate k 10 ++ t) = List.replicate k [] ++ pySplitNL t := by
  induction k with
  | zero => rfl
  | succ k ih => simp [List.replicate_succ, pySplitNL, ih]

/-- Helper: collapsing preserves the non-empty lines exactly, in order. -/
theorem collapseNLGo_filter_nonempty : ∀ (cs : List Nat) (p : Nat),
    (pySplitNL (collapseNLGo p cs)).filter (fun l => !l.isEmpty) =
      (pySplitNL cs).filter (fun l => !l.isEmpty) := by
  intro cs
  induction cs with
  | nil =>
    intro p
    show (pySplitNL (collapseEmit p)).filter _ = _
    rw [collapseEmit, show List.replicate (if 3 ≤ p then 2 else p) 10 =
      List.replicate (if 3 ≤ p then 2 else p) 10 ++ [] from (List.append_nil _).symm,
      pySplitNL_replicate, List.filter_append, List.filter_replicate]
    simp [pySplitNL]
  | cons c cs ih =>
    intro p
    by_cases hc : c = 10
    · simp only [collapseNLGo, if_pos hc, ih (p + 1)]
      subst hc
      simp [pySplitNL]
    · simp only [collapseNLGo, if_neg hc, collapseEmit]
      rw [pySplitNL_replicate, List.filter_append, List.filter_replicate]
      simp only [List.isEmpty_nil, Bool.not_true, if_neg (by simp : ¬(false = true)),
        List.nil_append]
      obtain ⟨hR, tR, heqR⟩ :=
        List.exists_cons_of_ne_nil (pySplitNL_ne_nil (collapseNLGo 0 cs))
      obtain ⟨h0, t0, heq0⟩ := List.exists_cons_of_ne_nil (pySplitNL_ne_nil cs)
      have hhead : hR = h0 := by
        have := collapseNLGo_headD cs
        rw [heqR, heq0] at this
        simpa using this
      have hfilter := ih 0
      rw [heqR, heq0] at hfilter
      subst hhead
      show (pySplitNL (c :: collapseNLGo 0 cs)).filter _ =
        (pySplitNL (c :: cs)).filter _
      rw [show pySplitNL (c :: collapseNLGo 0 cs) = (c :: hR) :: tR by
          simp [pySplitNL, hc, heqR],
        show pySplitNL (c :: cs) = (c :: hR) :: t0 by simp [pySplitNL, hc, heq0]]
      have htails : tR.filter (fun l => !l.isEmpty) = t0.filter (fun l => !l.isEmpty) := by
        rcases Bool.eq_false_or_eq_true hR.isEmpty with hE | hE
        · simpa [List.filter_cons, hE, List.cons.injEq] using hfilter
        · simpa [List.filter_cons, hE] using hfilter
      simp [List.filter_cons, htails]

/-! ### Claim C3: stripping infrastructure -/

/-- Helper: the right strip is a prefix, stated through the sublist order. -/
theorem pyStripRight_sublist (s : List Nat) : (pyStripRight s).Sublist s := by
  have h := List.rdropWhile_prefix isPySpace s
  exact h.sublist

/-- Helper: the right strip never lengthens a string. -/
theorem pyStripRight_length_le (s : List Nat) : (pyStripRight s).length ≤ s.length :=
  (pyStripRight_sublist s).length_le

/-- Helper: a fully stripped string is both left- and right-stripped. -/
theorem pyStrip_fix_parts (l : List Nat) (h : pyStrip l = l) :
    pyStripLeft l = l ∧ pyStripRight l = l := by
  have hsub : (pyStripLeft l).Sublist l := List.dropWhile_sublist _
  have hL : pyStripLeft l = l := by
    apply hsub.eq_of_length
    have e1 : (pyStripRight (pyStripLeft l)).length = l.length := congrArg List.length h
    have le1 : (pyStripRight (pyStripLeft l)).length ≤ (pyStripLeft l).length :=
      pyStripRight_length_le _
    have le2 : (pyStripLeft l).length ≤ l.length := hsub.length_le
    omega
  refine ⟨hL, ?_⟩
  have h2 : pyStripRight (pyStripLeft l) = l := h
  rwa [hL] at h2

/-- Helper: a left-stripped non-empty string starts with a non-space. -/
theorem pyStripLeft_fix_head (c : Nat) (t : List Nat)
    (h : pyStripLeft (c :: t) = c :: t) : isPySpace c = false := by
  by_contra hF
  have hc : isPySpace c = true := by revert hF; cases isPySpace c <;> simp
  rw [pyStripLeft, List.dropWhile_cons, if_pos hc] at h
  have hle : (List.dropWhile isPySpace t).length ≤ t.length :=
    (List.dropWhile_sublist isPySpace).length_le
  have := congrArg List.length h
  simp at this
  omega

/-- Helper: a non-space head makes the left strip the identity. -/
theorem pyStripLeft_cons_of_not_space (c : Nat) (t : List Nat)
    (hc : isPySpace c = false) : pyStripLeft (c :: t) = c :: t := by
  rw [pyStripLeft, List.dropWhile_cons, if_neg (by simp [hc])]

/-- Helper: the left strip of a right strip of a left-stripped string. -/
theorem pyStripLeft_pyStripRight_fix (s : List Nat) (h : pyStripLeft s = s) :
    pyStripLeft (pyStripRight s) = pyStripRight s := by
  match hs : pyStripRight s with
  | [] => rfl
  | d :: r =>
    match s, h with
    | [], _ =>
      rw [show pyStripRight ([] : List Nat) = [] from rfl] at hs
      exact absurd hs (by simp)
    | c :: t, h =>
      have hc : isPySpace c = false := pyStripLeft_fix_head c t h
      obtain ⟨u, hu⟩ := List.rdropWhile_prefix isPySpace (c :: t)
      rw [show (c :: t).rdropWhile isPySpace = pyStripRight (c :: t) from rfl, hs] at hu
      have hd : d = c := by
        have := congrArg (fun l => l.headD 0) hu
        simpa using this
      subst hd
      exact pyStripLeft_cons_of_not_space d r hc

/-- Helper: stripping is idempotent. -/
theorem pyStrip_idem (s : List Nat) : pyStrip (pyStrip s) = pyStrip s := by
  have hLL : pyStripLeft (pyStripLeft s) = pyStripLeft s := List.dropWhile_idempotent _ _
  have h1 : pyStripLeft (pyStripRight (pyStripLeft s)) = pyStripRight (pyStripLeft s) :=
    pyStripLeft_pyStripRight_fix (pyStripLeft s) hLL
  show pyStripRight (pyStripLeft (pyStripRight (pyStripLeft s))) = _
  rw [h1]
  exact List.rdropWhile_idempotent _ _

/-- Helper: characters of a stripped string come from the string. -/
theorem pyStrip_subset (s : List Nat) : ∀ c ∈ pyStrip s, c ∈ s := fun _ hc =>
  (List.dropWhile_sublist isPySpace).subset ((pyStripRight_sublist (pyStripLeft s)).subset hc)

/-! ### Claim C3: stripping a join of stripped lines trims empty boundary lines -/

/-- Helper: left-stripping the join of left-stripped lines drops exactly
the leading empty lines. -/
theorem pyStripLeft_joinNL (M : List (List Nat)) (h : ∀ l ∈ M, pyStripLeft l = l) :
    pyStripLeft (joinNL M) = joinNL (dropEmptyFront M) := by
  induction M with
  | nil => rfl
  | cons l M ih =>
    cases l with
    | nil =>
      cases M with
      | nil => rfl
      | cons m ms =>
        rw [joinNL_cons_cons, List.nil_append,
          show pyStripLeft (10 :: joinNL (m :: ms)) = pyStripLeft (joinNL (m :: ms)) from by
            rw [pyStripLeft, List.dropWhile_cons, if_pos (by decide)]; rfl,
          ih fun v hv => h v (List.mem_cons_of_mem _ hv)]
        rfl
    | cons c l2 =>
      have hc : isPySpace c = false :=
        pyStripLeft_fix_head c l2 (h _ (List.mem_cons_self _ _))
      have hL : pyStripLeft (joinNL ((c :: l2) :: M)) = joinNL ((c :: l2) :: M) := by
        rw [joinNL_cons, List.cons_append]
        exact pyStripLeft_cons_of_not_space c _ hc
      rw [hL, show dropEmptyFront ((c :: l2) :: M) = (c :: l2) :: M from by
        simp [dropEmptyFront]]

/-- Helper: reversing a join reverses the lines and their order. -/
theorem joinNL_reverse (M : List (List Nat)) :
    (joinNL M).reverse = joinNL ((M.map List.reverse).reverse) := by
  induction M with
  | nil => rfl
  | cons l M ih =>
    cases M with
    | nil => simp [joinNL, joinSep]
    | cons m ms =>
      have hRHS : (List.map List.reverse (l :: m :: ms)).reverse =
          (List.map List.reverse (m :: ms)).reverse ++ [l.reverse] := by
        rw [List.map_cons, List.reverse_cons]
      rw [joinNL_cons_cons, List.reverse_append, List.reverse_cons, ih, hRHS,
        joinNL_append ((List.map List.reverse (m :: ms)).reverse) [l.reverse]
          (by simp) (by simp)]
      simp [joinNL, joinSep, List.append_assoc]

/-- Helper: reversing lines commutes with stripping sides. -/
theorem pyStripLeft_reverse (l : List Nat) :
    pyStripLeft l.reverse = (pyStripRight l).reverse := by
  rw [pyStripRight, List.rdropWhile, List.reverse_reverse]
  rfl

/-- Helper: line emptiness survives reversal. -/
theorem isEmpty_reverse_eq (l : List Nat) : l.reverse.isEmpty = l.isEmpty := by
  cases l <;> simp

/-- Helper: right-stripping the join of right-stripped lines drops exactly
the trailing empty lines. -/
theorem pyStripRight_joinNL (M : List (List Nat)) (h : ∀ l ∈ M, pyStripRight l = l) :
    pyStripRight (joinNL M) = joinNL (M.rdropWhile List.isEmpty) := by
  have hx : pyStripRight (joinNL M) = (pyStripLeft (joinNL M).reverse).reverse := by
    rw [pyStripRight, List.rdropWhile]
    rfl
  rw [hx, joinNL_reverse, pyStripLeft_joinNL]
  · have e0 : (M.map List.reverse).reverse = M.reverse.map List.reverse := by
      rw [List.map_reverse]
    have e1 : (List.isEmpty ∘ List.reverse) = (List.isEmpty : List Nat → Bool) :=
      funext fun l => isEmpty_reverse_eq l
    have e2 : dropEmptyFront ((M.map List.reverse).reverse) =
        (M.reverse.dropWhile List.isEmpty).map List.reverse := by
      rw [dropEmptyFront, e0, List.dropWhile_map, e1]
    rw [e2, joinNL_reverse, List.map_map,
      show (List.reverse ∘ List.reverse) = (id : List Nat → List Nat) from
        funext fun l => List.reverse_reverse l,
      List.map_id, List.rdropWhile]
  · intro l hl
    rw [List.mem_reverse] at hl
    obtain ⟨l2, hl2, rfl⟩ := List.mem_map.mp hl
    rw [pyStripLeft_reverse, h l2 hl2]

/-- Helper: stripping the join of stripped newline-free lines trims the
empty boundary lines. -/
theorem pyStrip_joinNL (M : List (List Nat)) (h : ∀ l ∈ M, pyStrip l = l) :
    pyStrip (joinNL M) = joinNL (trimEmpty M) := by
  show pyStripRight (pyStripLeft (joinNL M)) = _
  rw [pyStripLeft_joinNL M fun l hl => (pyStrip_fix_parts l (h l hl)).1,
    pyStripRight_joinNL (dropEmptyFront M) (fun l hl =>
      (pyStrip_fix_parts l (h l ((List.dropWhile_sublist List.isEmpty).subset hl))).2)]
  rfl

/-! ### Claim C3: trimmed line lists and adjacency of empty lines -/

/-- Helper: the trimmed line list is a sublist of the original. -/
theorem trimEmpty_sublist (M : List (List Nat)) : (trimEmpty M).Sublist M := by
  have h1 := List.rdropWhile_prefix List.isEmpty (dropEmptyFront M)
  exact h1.sublist.trans (List.dropWhile_sublist _)

/-- Helper: the first line of a trimmed line list is non-empty. -/
theorem trimEmpty_head (M : List (List Nat)) (l : List Nat) (t : List (List Nat))
    (h : trimEmpty M = l :: t) : l.isEmpty = false := by
  obtain ⟨u, hu⟩ := List.rdropWhile_prefix List.isEmpty (dropEmptyFront M)
  rw [show (dropEmptyFront M).rdropWhile List.isEmpty = trimEmpty M from rfl, h] at hu
  have hne : dropEmptyFront M ≠ [] := by rw [← hu]; simp
  have hhead := List.head_dropWhile_not List.isEmpty M
    (show List.dropWhile List.isEmpty M ≠ [] from hne)
  have heq : (dropEmptyFront M).head hne = l := by
    have h2 : ((l :: t) ++ u).head (by simp) = l := by simp
    rw [← h2]
    congr 1
    exact hu.symm
  rw [show (List.dropWhile List.isEmpty M).head _ = (dropEmptyFront M).head hne from rfl,
    heq] at hhead
  exact hhead

/-- Helper: the last line of a trimmed line list is non-empty. -/
theorem trimEmpty_last (M : List (List Nat)) (l : List Nat) (A : List (List Nat))
    (h : trimEmpty M = A ++ [l]) : l.isEmpty = false := by
  have hne : trimEmpty M ≠ [] := by rw [h]; simp
  have hlast := List.rdropWhile_last_not List.isEmpty (dropEmptyFront M)
    (show (dropEmptyFront M).rdropWhile List.isEmpty ≠ [] from hne)
  have heq : (trimEmpty M).getLast hne = l := by
    have h2 : (A ++ [l]).getLast (by simp) = l := List.getLast_append _
    rw [← h2]
    congr 1
  rw [show ((dropEmptyFront M).rdropWhile List.isEmpty).getLast _ =
    (trimEmpty M).getLast hne from rfl, heq] at hlast
  simpa using hlast

/-- Helper: a line list is its trim with empty lines restored at the ends. -/
theorem trimEmpty_decomp (M : List (List Nat)) :
    ∃ A B, M = A ++ trimEmpty M ++ B := by
  obtain ⟨u, hu⟩ := List.rdropWhile_prefix List.isEmpty (dropEmptyFront M)
  refine ⟨M.takeWhile List.isEmpty, u, ?_⟩
  conv_lhs => rw [← List.takeWhile_append_dropWhile List.isEmpty M]
  rw [show List.dropWhile List.isEmpty M = dropEmptyFront M from rfl, ← hu,
    List.append_assoc]
  rfl

/-- Helper: the tail of a list with no adjacent empty lines has none. -/
theorem noAdjEmpty_tail (a : List Nat) (t : List (List Nat))
    (h : noAdjEmpty (a :: t) = true) : noAdjEmpty t = true := by
  cases t with
  | nil => rfl
  | cons b u =>
    rw [noAdjEmpty, Bool.and_eq_true] at h
    exact h.2

/-- Helper: a failed adjacency check exhibits two adjacent empty lines. -/
theorem noAdjEmpty_decomp (M : List (List Nat)) (h : noAdjEmpty M = false) :
    ∃ A B, M = A ++ [] :: [] :: B := by
  induction M with
  | nil => simp [noAdjEmpty] at h
  | cons a M ih =>
    cases M with
    | nil => simp [noAdjEmpty] at h
    | cons b t =>
      by_cases hab : a.isEmpty && b.isEmpty
      · rw [Bool.and_eq_true] at hab
        exact ⟨[], t, by
          rw [List.isEmpty_iff.mp hab.1, List.isEmpty_iff.mp hab.2, List.nil_append]⟩
      · have h2 : noAdjEmpty (b :: t) = false := by
          rw [noAdjEmpty] at h
          rcases Bool.and_eq_false_iff.mp h with h1 | h1
          · exact absurd (by simpa using h1) hab
          · exact h1
        obtain ⟨A, B, hAB⟩ := ih h2
        exact ⟨a :: A, B, by rw [hAB]; rfl⟩

/-- Helper: adjacent empty lines flanked by material on both sides produce
three consecutive newlines in the join. -/
theorem joinNL_adj_triple (A B : List (List Nat)) (hA : A ≠ []) (hB : B ≠ []) :
    hasTriple (joinNL (A ++ [] :: [] :: B)) = true := by
  rw [joinNL_append A ([] :: [] :: B) hA (by simp)]
  obtain ⟨b, B2, rfl⟩ := List.exists_cons_of_ne_nil hB
  rw [show joinNL ([] :: [] :: b :: B2) = 10 :: 10 :: joinNL (b :: B2) from by
    rw [joinNL_cons_cons, joinNL_cons_cons]; rfl]
  exact hasTriple_append_right _ _ (hasTriple_head _)

/-- Helper: the join of newline-free lines with no adjacent empty lines has
no triple newline run. -/
theorem joinNL_no_triple_aux : ∀ (n : Nat) (M : List (List Nat)), M.length ≤ n →
    (∀ l ∈ M, 10 ∉ l) → noAdjEmpty M = true → hasTriple (joinNL M) = false := by
  intro n
  induction n with
  | zero =>
    intro M hM _ _
    rw [List.eq_nil_of_length_eq_zero (Nat.le_zero.mp hM)]
    rfl
  | succ n ih =>
    intro M hM h10 hadj
    match M with
    | [] => rfl
    | [l] =>
      have := hasTriple_append_no_nl l [] (h10 l (by simp))
      simpa using this
    | l :: m :: M2 =>
      rw [joinNL_cons_cons, hasTriple_append_no_nl l _ (h10 l (by simp))]
      simp only [List.length_cons] at hM
      cases m with
      | cons d m2 =>
        have hd : d ≠ 10 := fun hEq => (h10 (d :: m2) (by simp))
          (by rw [hEq]; exact List.mem_cons_self _ _)
        have hjoin : joinNL ((d :: m2) :: M2) =
            d :: (m2 ++ if M2 = [] then [] else 10 :: joinNL M2) := by
          rw [joinNL_cons, List.cons_append]
        rw [hjoin, hasTriple_cons_cons_of_ne 10 d _ hd, ← hjoin]
        exact ih ((d :: m2) :: M2) (by simp; omega)
          (fun v hv => h10 v (List.mem_cons_of_mem l hv)) (noAdjEmpty_tail l _ hadj)
      | nil =>
        cases M2 with
        | nil => rfl
        | cons m3 M3 =>
          have hm3 : m3 ≠ [] := by
            intro hE
            subst hE
            simp [noAdjEmpty] at hadj
          obtain ⟨e, m4, hm34⟩ := List.exists_cons_of_ne_nil hm3
          have he : e ≠ 10 := fun hEq => (h10 m3 (by simp))
            (by rw [hm34, hEq]; exact List.mem_cons_self _ _)
          have hjoin : joinNL (m3 :: M3) =
              e :: (m4 ++ if M3 = [] then [] else 10 :: joinNL M3) := by
            rw [hm34, joinNL_cons, List.cons_append]
          rw [show joinNL ([] :: m3 :: M3) = 10 :: joinNL (m3 :: M3) from by
            rw [joinNL_cons_cons]; rfl]
          rw [hjoin,
            show hasTriple (10 :: 10 :: e ::
                (m4 ++ if M3 = [] then [] else 10 :: joinNL M3)) =
              hasTriple (10 :: e ::
                (m4 ++ if M3 = [] then [] else 10 :: joinNL M3)) from by
              simp [hasTriple, he],
            hasTriple_cons_cons_of_ne 10 e _ he, ← hjoin]
          exact ih (m3 :: M3) (by simp at hM ⊢; omega)
            (fun v hv => h10 v
              (List.mem_cons_of_mem l (List.mem_cons_of_mem [] hv)))
            (noAdjEmpty_tail [] _ (noAdjEmpty_tail l _ hadj))

/-! ### Claim C3: idempotence — main results -/

/-- Helper: collapsing has no triple newline run. -/
theorem collapseNL_no_triple (s : List Nat) : hasTriple (collapseNL s) = false :=
  collapseNLGo_no_triple s 0

/-- Helper: the whitespace-only-lines-are-empty condition survives the
newline collapse. -/
theorem collapse_keeps_empty_cond (x : List Nat)
    (hx : ∀ l ∈ pySplitNL x, pyStrip l = [] → l = []) :
    ∀ l ∈ pySplitNL (collapseNL x), pyStrip l = [] → l = [] := by
  intro l hl hstrip
  by_contra hne
  have hmem : l ∈ (pySplitNL (collapseNLGo 0 x)).filter (fun l => !l.isEmpty) := by
    rw [List.mem_filter]
    exact ⟨hl, by simp [List.isEmpty_iff, hne]⟩
  rw [collapseNLGo_filter_nonempty] at hmem
  exact hne (hx l (List.mem_of_mem_filter hmem) hstrip)

/-- Helper: mapping an on-list identity is the identity. -/
theorem map_pyStrip_eq_self (L : List (List Nat)) (h : ∀ l ∈ L, pyStrip l = l) :
    L.map pyStrip = L := by
  induction L with
  | nil => rfl
  | cons a t ih =>
    rw [List.map_cons, h a (by simp), ih fun v hv => h v (List.mem_cons_of_mem a hv)]

/-- Helper: a string with stripped lines, stripped ends and no triple
newline run is a fixed point of the normalizer. -/
theorem cleanText_fixpoint (w : List Nat)
    (hlines : ∀ l ∈ pySplitNL w, pyStrip l = l)
    (hstrip : pyStrip w = w) (htriple : hasTriple w = false) :
    cleanText w = w := by
  by_cases hw : w = []
  · simp [cleanText, hw]
  · simp only [cleanText, if_neg hw]
    rw [collapseNL_eq_self w htriple, map_pyStrip_eq_self _ hlines,
      joinNL_pySplitNL w, hstrip]

/-- C3 fails as stated: on the input `"a\n \n \nb"` — whose blank lines
contain spaces — one application of the normalizer yields `"a\n\n\nb"`,
while a second application collapses the newly created newline run to
`"a\n\nb"`, so the normalizer is not idempotent on such inputs. -/
theorem clean_text_idem_cex :
    cleanText [97, 10, 32, 10, 32, 10, 98] = [97, 10, 10, 10, 98] ∧
    cleanText (cleanText [97, 10, 32, 10, 32, 10, 98]) = [97, 10, 10, 98] ∧
    cleanText (cleanText [97, 10, 32, 10, 32, 10, 98]) ≠
      cleanText [97, 10, 32, 10, 32, 10, 98] :=
  ⟨by decide, by decide, by decide⟩

/-- C3 amended.  The normalizer is idempotent on every string whose
whitespace-only lines are genuinely empty (no blank line contains spaces or
tabs): for such `x`, `normalize(normalize(x)) = normalize(x)`.  (On inputs
with whitespace-bearing blank lines a second pass can still merge newline
runs, as the counterexample shows.) -/
theorem clean_text_idem_amended (x : List Nat)
    (hx : ∀ l ∈ pySplitNL x, pyStrip l = [] → l = []) :
    cleanText (cleanText x) = cleanText x := by
  by_cases hx0 : x = []
  · simp [cleanText, hx0]
  set L := pySplitNL (collapseNL x) with hL
  set M := L.map pyStrip with hM
  have hclean : cleanText x = pyStrip (joinNL M) := by
    simp only [cleanText, if_neg hx0]
  have hM10 : ∀ l ∈ M, 10 ∉ l := by
    intro l hl hmem
    obtain ⟨l0, hl0, rfl⟩ := List.mem_map.mp hl
    exact (pySplitNL_no_nl _ l0 hl0) (pyStrip_subset l0 10 hmem)
  have hMst : ∀ l ∈ M, pyStrip l = l := by
    intro l hl
    obtain ⟨l0, _, rfl⟩ := List.mem_map.mp hl
    exact pyStrip_idem l0
  have hA3 : pyStrip (joinNL M) = joinNL (trimEmpty M) := pyStrip_joinNL M hMst
  by_cases hT : trimEmpty M = []
  · rw [hclean, hA3, hT]
    simp [cleanText, joinNL, joinSep]
  · have hy10 : ∀ l ∈ trimEmpty M, 10 ∉ l :=
      fun l hl => hM10 l ((trimEmpty_sublist M).subset hl)
    have hylines : pySplitNL (joinNL (trimEmpty M)) = trimEmpty M :=
      pySplitNL_joinNL _ hy10 hT
    have hstr : ∀ l ∈ pySplitNL (joinNL (trimEmpty M)), pyStrip l = l := by
      rw [hylines]
      exact fun l hl => hMst l ((trimEmpty_sublist M).subset hl)
    have hps : pyStrip (joinNL (trimEmpty M)) = joinNL (trimEmpty M) := by
      rw [← hA3]
      exact pyStrip_idem _
    have hadj : noAdjEmpty (trimEmpty M) = true := by
      by_contra hF
      have hfalse : noAdjEmpty (trimEmpty M) = false := by
        revert hF; cases noAdjEmpty (trimEmpty M) <;> simp
      obtain ⟨A, B, hAB⟩ := noAdjEmpty_decomp _ hfalse
      have hAne : A ≠ [] := by
        intro h0
        rw [h0, List.nil_append] at hAB
        exact absurd (trimEmpty_head M [] ([] :: B) hAB) (by simp)
      have hBne : B ≠ [] := by
        intro h0
        rw [h0] at hAB
        have h1 : trimEmpty M = (A ++ [([] : List Nat)]) ++ [([] : List Nat)] := by
          rw [hAB]; simp
        exact absurd (trimEmpty_last M [] (A ++ [[]]) h1) (by simp)
      obtain ⟨P, S, hPS⟩ := trimEmpty_decomp M
      have hMdec : L.map pyStrip = (P ++ A) ++ [] :: [] :: (B ++ S) := by
        rw [← hM, hPS, hAB]
        simp [List.append_assoc]
      obtain ⟨L1, L2, hLsplit, hmap1, hmap2⟩ := List.map_eq_append_iff.mp hMdec
      obtain ⟨l1, L3, hL2, hstrip1, hmap3⟩ := List.map_eq_cons_iff.mp hmap2
      obtain ⟨l2, L4, hL3, hstrip2, hmap4⟩ := List.map_eq_cons_iff.mp hmap3
      have hcond := collapse_keeps_empty_cond x hx
      have hl1 : l1 = [] := by
        refine hcond l1 ?_ hstrip1
        rw [← hL, hLsplit, hL2]
        exact List.mem_append_right _ (List.mem_cons_self _ _)
      have hl2 : l2 = [] := by
        refine hcond l2 ?_ hstrip2
        rw [← hL, hLsplit, hL2, hL3]
        exact List.mem_append_right _ (List.mem_cons_of_mem _ (List.mem_cons_self _ _))
      have hL1ne : L1 ≠ [] := by
        intro h0
        rw [h0, List.map_nil] at hmap1
        exact hAne (List.append_eq_nil.mp hmap1.symm).2
      have hL4ne : L4 ≠ [] := by
        intro h0
        rw [h0, List.map_nil] at hmap4
        exact hBne (List.append_eq_nil.mp hmap4.symm).1
      have hLdec : L = L1 ++ [] :: [] :: L4 := by
        rw [hLsplit, hL2, hL3, hl1, hl2]
      have htr : hasTriple (joinNL L) = true := by
        rw [hLdec]
        exact joinNL_adj_triple L1 L4 hL1ne hL4ne
      rw [hL, joinNL_pySplitNL, collapseNL_no_triple] at htr
      simp at htr
    have hnt := joinNL_no_triple_aux (trimEmpty M).length (trimEmpty M) le_rfl hy10 hadj
    rw [hclean, hA3]
    exact cleanText_fixpoint _ hstr hps hnt

/-- Witness for C3 amended at a concrete input whose only blank lines are
truly empty. -/
theorem clean_text_idem_amended_wit :
    (∀ l ∈ pySplitNL [32, 97, 32, 98, 10, 10, 10, 10, 99, 32], pyStrip l = [] → l = []) ∧
    cleanText (cleanText [32, 97, 32, 98, 10, 10, 10, 10, 99, 32]) =
      cleanText [32, 97, 32, 98, 10, 10, 10, 10, 99, 32] :=
  ⟨by decide, clean_text_idem_amended _ (by decide)⟩
